import Mathlib

/-!
Verification of the Oproject project-tracking application against its
natural-language specification.

The development shallowly embeds the parts of the TypeScript source that the
claims concern: the `.env` parser and the GitHub-URL regular expression of
`EnvironmentsSection.tsx` / `DocumentationSection.tsx`, the dependency and
environment synchronization of `DependenciesSection.tsx` and
`EnvironmentsSection.tsx`, the version-freshness check of
`DependenciesSection.tsx`, the two repository-content fetchers
(`src/lib/github.ts` and the unnamed variant `part_008`), the version deletion
of `VersionsSection.tsx`, and the task-status cycle of `TasksSection.tsx`.

JavaScript strings are embedded as `List Char` (wrapped in `String` at the
interfaces), asynchronous backend and network calls as explicit oracles or
result parameters, and thrown errors as `Except String` results. Apostrophes
inside French message strings are written with the `\x27` escape.
-/

deriving instance DecidableEq for Except

namespace Oproject

/-! ## JavaScript string primitives -/

/-- Whitespace characters removed by the JavaScript `String.prototype.trim`
operation: the ECMAScript WhiteSpace set (tab, vertical tab, form feed, space,
no-break space, zero-width no-break space, and the Unicode space-separator
category U+1680, U+2000..U+200A, U+202F, U+205F, U+3000) together with the
LineTerminator set (line feed, carriage return, line separator, paragraph
separator). -/
def isWsChar (c : Char) : Bool :=
  c = ' ' || c = '\t' || c = '\n' || c = '\r' || c = '\x0b' || c = '\x0c'
  || c = '\u00a0' || c = '\u1680'
  || (decide ('\u2000' ≤ c) && decide (c ≤ '\u200a'))
  || c = '\u2028' || c = '\u2029' || c = '\u202f' || c = '\u205f'
  || c = '\u3000' || c = '\ufeff'

/-- The ECMAScript LineTerminator characters: line feed, carriage return, line
separator, paragraph separator. A dot in a JavaScript pattern without the
dotAll flag matches any character except these. -/
def isLineTerm (c : Char) : Bool :=
  c = '\n' || c = '\r' || c = '\u2028' || c = '\u2029'

/-- Removal of leading whitespace. -/
def ltrim (l : List Char) : List Char := l.dropWhile isWsChar

/-- Removal of trailing whitespace. -/
def rtrim : List Char → List Char
  | [] => []
  | c :: xs =>
    let r := rtrim xs
    if r = [] then (if isWsChar c then [] else [c]) else c :: r

/-- JavaScript `String.prototype.trim`: removal of leading and trailing
whitespace. -/
def jsTrim (l : List Char) : List Char := rtrim (ltrim l)

/-- JavaScript `String.prototype.split` at a single separator character.
Splitting the empty string yields one empty field. -/
def splitOnChar (c : Char) : List Char → List (List Char)
  | [] => [[]]
  | x :: xs =>
    if x = c then [] :: splitOnChar c xs
    else
      match splitOnChar c xs with
      | [] => [[x]]
      | y :: ys => (x :: y) :: ys

/-- Joining fields with a single separator character (the inverse direction of
`splitOnChar`). -/
def intercalateChar (c : Char) : List (List Char) → List Char
  | [] => []
  | [a] => a
  | a :: b :: rest => a ++ c :: intercalateChar c (b :: rest)

/-- Literal pattern matching at the start of a string: `dropStart? pat l`
returns the remainder of `l` after the pattern `pat` when `pat` begins `l`. -/
def dropStart? : List Char → List Char → Option (List Char)
  | [], l => some l
  | _ :: _, [] => none
  | p :: ps, c :: cs => if p = c then dropStart? ps cs else none

/-- Literal pattern matching at the end of a string: `dropEnd? pat l` returns
the front of `l` before the pattern `pat` when `pat` ends `l`. -/
def dropEnd? (pat l : List Char) : Option (List Char) :=
  (dropStart? pat.reverse l.reverse).map List.reverse

/-- JavaScript `String.prototype.startsWith` for a literal pattern. -/
def startsWithL (pat l : List Char) : Bool := (dropStart? pat l).isSome

/-- JavaScript `String.prototype.includes` for a literal pattern. -/
def containsSub (pat : List Char) : List Char → Bool
  | [] => startsWithL pat []
  | c :: xs => startsWithL pat (c :: xs) || containsSub pat xs

/-- JavaScript `String.prototype.toLowerCase`, restricted to the character
ranges the compared file names use. -/
def lowerL (l : List Char) : List Char := l.map Char.toLower

/-! ## The `.env` parser (`EnvironmentsSection.tsx` lines 161-174) -/

/-- Keys of a JavaScript object represented as an ordered association list. -/
def envKeys (m : List (List Char × List Char)) : List (List Char) := m.map Prod.fst

/-- One assignment `vars[key] = value` on a JavaScript object: an existing key
is updated in place, a new key is appended. -/
def envInsert (m : List (List Char × List Char)) (k v : List Char) :
    List (List Char × List Char) :=
  if k ∈ envKeys m then m.map (fun kv => if kv.1 = k then (k, v) else kv)
  else m ++ [(k, v)]

/-- The match of a line against the anchored pattern of `parseEnvFile`, which
captures one or more characters other than the equals sign, then the equals
sign, then a dot-star group up to the end anchor. The key group is everything
before the first equals sign (required nonempty; a negated character class, so
it may contain line terminators). The value group is everything after that
equals sign, but only when it contains no line terminator: a JavaScript dot
without the dotAll flag cannot match one, and the end anchor of a pattern
without the multiline flag requires the end of the input, so a line whose
post-equals remainder contains a carriage return or a line/paragraph separator
fails the whole match. -/
def envLineMatch (l : List Char) : Option (List Char × List Char) :=
  let k := l.takeWhile (fun c => c != '=')
  match l.dropWhile (fun c => c != '=') with
  | '=' :: v =>
    if k = [] then none
    else if v.any isLineTerm then none
    else some (k, v)
  | _ => none

/-- The value post-processing of `parseEnvFile`, a replace with a global
character class of the two quote characters: every double quote and every
single quote in the value is removed, wherever it occurs. -/
def removeQuotes (l : List Char) : List Char :=
  l.filter (fun c => !(c = '\x22' || c = '\x27'))

/-- Processing of one line by `parseEnvFile`: the line is trimmed; blank lines
and lines starting with the hash character are skipped; a line matching the
key-equals-value pattern assigns the trimmed key to the trimmed,
quote-stripped value; a non-matching line is skipped silently. -/
def envLineStep (m : List (List Char × List Char)) (line : List Char) :
    List (List Char × List Char) :=
  let l := jsTrim line
  if l = [] then m
  else if l.head? = some '#' then m
  else
    match envLineMatch l with
    | none => m
    | some kv => envInsert m (jsTrim kv.1) (removeQuotes (jsTrim kv.2))

/-- `parseEnvFile` of `EnvironmentsSection.tsx` lines 161-174: the content is
split at line feeds and each line is processed in order into an accumulated
variable object. -/
def parseEnvFileL (content : List Char) : List (List Char × List Char) :=
  (splitOnChar '\n' content).foldl envLineStep []

/-- String-level wrapper of `parseEnvFileL`. -/
def parseEnvFile (content : String) : List (String × String) :=
  (parseEnvFileL content.data).map (fun kv => (String.mk kv.1, String.mk kv.2))

/-- Modelled from the spec: serialization of a parsed variable set back to
KEY=VALUE lines, one binding per line. The repository stores variable sets as
JSON objects and contains no serializer; §8 of the spec states the idempotence
property through this serialization. -/
def serializeEnvL (m : List (List Char × List Char)) : List Char :=
  intercalateChar '\n' (m.map (fun kv => kv.1 ++ '=' :: kv.2))

/-- Modelled from the spec: stripping only WRAPPING quotes from a value — when
the value begins and ends with a quote character, both ends are removed,
otherwise the value is unchanged. The spec describes the value post-processing
of `parseEnvFile` with these words; this comparison definition is used to
settle that claim against the source behavior `removeQuotes`. -/
def stripWrapQuotes (l : List Char) : List Char :=
  if 2 ≤ l.length ∧ l.head? = l.getLast? ∧
      (l.head? = some '\x22' ∨ l.head? = some '\x27') then
    (l.drop 1).dropLast
  else l

/-- Invariant satisfied by every entry produced by `parseEnvFileL`: the key is
nonempty, trim-fixed, free of equals signs and line feeds and does not start
with the hash character; the value is free of line terminators and quotes. -/
def GoodEntry (kv : List Char × List Char) : Prop :=
  kv.1 ≠ [] ∧ jsTrim kv.1 = kv.1 ∧ '=' ∉ kv.1 ∧ '\n' ∉ kv.1 ∧
  kv.1.head? ≠ some '#' ∧ (∀ c ∈ kv.2, isLineTerm c = false) ∧
  '\x22' ∉ kv.2 ∧ '\x27' ∉ kv.2

/-- Invariant satisfied by the whole object produced by `parseEnvFileL`: every
entry is good and the keys are pairwise distinct. -/
def EnvGood (m : List (List Char × List Char)) : Prop :=
  (∀ kv ∈ m, GoodEntry kv) ∧ (envKeys m).Nodup

/-! ## The GitHub URL parsing step (`EnvironmentsSection.tsx` lines 103-119,
`DocumentationSection.tsx` lines 232-248) -/

/-- The repository segment of the URL pattern: one or more characters that are
neither a slash nor a dot, optionally followed by the literal `.git`, at the
end of the string. -/
def repoSegMatch (r : List Char) : Option (List Char) :=
  if r ≠ [] ∧ '/' ∉ r ∧ '.' ∉ r then some r
  else
    match dropEnd? ('.' :: 'g' :: 'i' :: 't' :: []) r with
    | some core =>
      if core ≠ [] ∧ '/' ∉ core ∧ '.' ∉ core then some core else none
    | none => none

/-- The owner and repository groups of the URL pattern after the host: one or
more non-slash characters, a slash, then the repository segment. -/
def matchGithubTail (rest : List Char) : Option (List Char × List Char) :=
  let o := rest.takeWhile (fun c => c != '/')
  match rest.dropWhile (fun c => c != '/') with
  | '/' :: r =>
    if o = [] then none
    else (repoSegMatch r).map (fun repo => (o, repo))
  | _ => none

/-- The anchored URL pattern of `EnvironmentsSection.tsx` line 103 and
`DocumentationSection.tsx` line 232: an http or https scheme, an optional
`www.` host qualifier, the literal host `github.com`, a slash, the owner
group, a slash, and the repository group with optional `.git`. The two
optional literals are consumed when present, which agrees with the
backtracking behavior of the pattern because a consumed optional that is
present can never be re-read as the following literal. -/
def matchGithubUrl (s : List Char) : Option (List Char × List Char) :=
  match dropStart? ('h' :: 't' :: 't' :: 'p' :: []) s with
  | none => none
  | some r1 =>
    let r2 := match dropStart? ('s' :: []) r1 with
      | some x => x
      | none => r1
    match dropStart? (':' :: '/' :: '/' :: []) r2 with
    | none => none
    | some r3 =>
      let r4 := match dropStart? ('w' :: 'w' :: 'w' :: '.' :: []) r3 with
        | some x => x
        | none => r3
      match dropStart?
          ('g' :: 'i' :: 't' :: 'h' :: 'u' :: 'b' :: '.' :: 'c' :: 'o' :: 'm' :: '/' :: []) r4 with
      | none => none
      | some r5 => matchGithubTail r5

/-- The message thrown when the URL does not match the pattern. -/
def githubUrlInvalidMsg : String :=
  "URL GitHub invalide. Format attendu: https://github.com/owner/repo"

/-- The GitHub URL parsing step of `syncWithGitHub` (`EnvironmentsSection.tsx`
lines 103-119 and identically `DocumentationSection.tsx` lines 232-248): the
URL is matched against the pattern; on failure the invalid-URL error is
raised; the two additional emptiness guards of the source follow (they can
never fire because the pattern groups are nonempty); otherwise the owner/repo
pair is returned. A raised error is modeled as an `Except.error` carrying the
message. -/
def parseGithubUrlStep (url : String) : Except String (String × String) :=
  match matchGithubUrl url.data with
  | none => .error githubUrlInvalidMsg
  | some o_r =>
    if o_r.1 = [] ∨ o_r.2 = [] then
      .error "Impossible d\x27extraire le propriétaire et le nom du repository de l\x27URL GitHub"
    else if o_r.1.length < 1 ∨ o_r.2.length < 1 then
      .error "Le propriétaire et le nom du repository ne peuvent pas être vides"
    else .ok (String.mk o_r.1, String.mk o_r.2)

/-- Scheme characters of a well-formed GitHub URL, used to state the claim
over all accepted shapes. -/
def schemeChars (secure : Bool) : List Char :=
  if secure then 'h' :: 't' :: 't' :: 'p' :: 's' :: ':' :: '/' :: '/' :: []
  else 'h' :: 't' :: 't' :: 'p' :: ':' :: '/' :: '/' :: []

/-- Optional `www.` host qualifier characters. -/
def wwwChars (www : Bool) : List Char :=
  if www then 'w' :: 'w' :: 'w' :: '.' :: [] else []

/-- The literal host and separating slash. -/
def ghHostChars : List Char :=
  'g' :: 'i' :: 't' :: 'h' :: 'u' :: 'b' :: '.' :: 'c' :: 'o' :: 'm' :: '/' :: []

/-- Optional trailing `.git` characters. -/
def gitSuffixChars (git : Bool) : List Char :=
  if git then '.' :: 'g' :: 'i' :: 't' :: [] else []

/-- A GitHub URL assembled from its accepted parts. -/
def githubUrlOf (secure www git : Bool) (o r : List Char) : String :=
  String.mk (schemeChars secure ++ wwwChars www ++ ghHostChars ++
    o ++ '/' :: (r ++ gitSuffixChars git))

/-! ## Dependency synchronization (`DependenciesSection.tsx` lines 207-309)
and the environment creation loop (`EnvironmentsSection.tsx` lines 206-220) -/

/-- The dependency kind column. -/
inductive DepType
  | production
  | development
deriving DecidableEq, Repr

/-- A row of the `dependencies` table as built by `syncWithGitHub`. -/
structure DepRow where
  project_id : String
  name : String
  version : String
  depType : DepType
  homepage : String
  user_id : String
deriving DecidableEq, Repr

/-- The two dependency groups of a fetched and JSON-parsed `package.json`
manifest; an absent group is the empty list. -/
structure Manifest where
  dependencies : List (String × String)
  devDependencies : List (String × String)
deriving DecidableEq, Repr

/-- The row pushed for one entry of `packageJson.dependencies`. -/
def prodRow (pid uid : String) (nv : String × String) : DepRow :=
  { project_id := pid, name := nv.1, version := nv.2, depType := .production,
    homepage := "https://www.npmjs.com/package/" ++ nv.1, user_id := uid }

/-- The row pushed for one entry of `packageJson.devDependencies`. -/
def devRow (pid uid : String) (nv : String × String) : DepRow :=
  { project_id := pid, name := nv.1, version := nv.2, depType := .development,
    homepage := "https://www.npmjs.com/package/" ++ nv.1, user_id := uid }

/-- The `depsToSync` array of `DependenciesSection.tsx` lines 252-278: the
production rows in declaration order followed by the development rows. -/
def depsToSync (pid uid : String) (m : Manifest) : List DepRow :=
  m.dependencies.map (prodRow pid uid) ++ m.devDependencies.map (devRow pid uid)

/-- The message thrown when the manifest declares no dependencies. -/
def noDepsMsg : String := "Aucune dépendance trouvée dans le package.json"

/-- The reconciliation tail of `syncWithGitHub` in `DependenciesSection.tsx`
lines 280-295, as a transformer of the stored `dependencies` rows: when
`depsToSync` is empty the no-dependencies error is thrown BEFORE any delete,
leaving the rows unchanged; otherwise every row of the project is deleted and
the fresh rows are inserted. The pair result carries the thrown-or-ok outcome
and the final row set. -/
def syncDependencies (pid uid : String) (m : Manifest) (rows : List DepRow) :
    Except String Unit × List DepRow :=
  if depsToSync pid uid m = [] then (.error noDepsMsg, rows)
  else (.ok (),
    rows.filter (fun row => row.project_id != pid) ++ depsToSync pid uid m)

/-- A row of the `environments` table; the column called variables in the
schema is named `vars` here because the former word is reserved in Lean. -/
structure EnvRow where
  project_id : String
  name : String
  vars : List (String × String)
  user_id : String
deriving DecidableEq, Repr

/-- The environment creation loop of `EnvironmentsSection.tsx` lines 206-220:
for every computed (name, variables) set with at least one variable a new row
is inserted; no delete of existing rows is issued anywhere in this
`syncWithGitHub`. -/
def insertEnvironments (pid uid : String)
    (sets : List (String × List (String × String))) (rows : List EnvRow) :
    List EnvRow :=
  rows ++ (sets.filter (fun s => !s.2.isEmpty)).map
    (fun s => { project_id := pid, name := s.1, vars := s.2, user_id := uid })

/-! ## The version-freshness check (`DependenciesSection.tsx` lines 84-129) -/

/-- A decimal numeral without leading zeros, as the semantic-version grammar
requires for the three numeric fields. -/
def numericIdent (l : List Char) : Bool :=
  !l.isEmpty && l.all Char.isDigit && (l == ['0'] || l.head? != some '0')

/-- Value of a decimal numeral. -/
def digitsVal (l : List Char) : Nat :=
  l.foldl (fun a c => a * 10 + (c.toNat - '0'.toNat)) 0

/-- The numeric MAJOR.MINOR.PATCH core of the semantic-version grammar. The
prerelease and build-metadata extensions of the full grammar are not modeled;
the claims are settled on plain numeric versions and on strings that are
invalid in both the model and the full grammar. -/
def parseSemverCore (l : List Char) : Option (Nat × Nat × Nat) :=
  match splitOnChar '.' l with
  | [a, b, c] =>
    if numericIdent a && numericIdent b && numericIdent c then
      some (digitsVal a, digitsVal b, digitsVal c)
    else none
  | _ => none

/-- The front end shared by the semver library's clean and valid operations:
trim whitespace, then strip leading equals signs and `v` markers. -/
def semverLoose (l : List Char) : List Char :=
  (jsTrim l).dropWhile (fun c => c = '=' || c = 'v')

/-- `semver.clean`: the canonical version string when the loosened input is a
valid version, otherwise null (modeled as `none`). -/
def semverClean (l : List Char) : Option (List Char) :=
  match parseSemverCore (semverLoose l) with
  | some _ => some (semverLoose l)
  | none => none

/-- `semver.valid` as a Boolean: whether the loosened input parses. -/
def semverValidL (l : List Char) : Bool := (parseSemverCore (semverLoose l)).isSome

/-- Strict ordering of version triples, major field first. -/
def tripleGt (p q : Nat × Nat × Nat) : Bool :=
  if p.1 ≠ q.1 then decide (q.1 < p.1)
  else if p.2.1 ≠ q.2.1 then decide (q.2.1 < p.2.1)
  else decide (q.2.2 < p.2.2)

/-- `semver.gt` on two version strings; in the source it is only evaluated
after both strings passed `semver.valid`, and it is false here when either
fails to parse. -/
def semverGtL (a b : List Char) : Bool :=
  match parseSemverCore (semverLoose a), parseSemverCore (semverLoose b) with
  | some x, some y => tripleGt x y
  | _, _ => false

/-- The version preprocessing `dep.version.replace()` with a character class
of caret and tilde and no global flag: only the FIRST occurrence of either
range operator is removed. -/
def removeFirstRangeOp : List Char → List Char
  | [] => []
  | c :: xs => if c = '^' || c = '~' then xs else c :: removeFirstRangeOp xs

/-- A stored dependency together with the two client-side-only annotation
fields, restricted to the fields `checkForUpdates` reads and writes. The
fields of the row it does not touch are carried unchanged by the source spread
and are omitted. -/
structure DepCheck where
  name : String
  version : String
  latestVersion : Option String
  hasUpdate : Option Bool
deriving DecidableEq, Repr

/-- The `currentVersion` computation of `checkForUpdates` line 102: clean the
version with the first range operator removed, falling back to the original
stored version when cleaning returns null. -/
def currentVersionOf (dep : DepCheck) : List Char :=
  match semverClean (removeFirstRangeOp dep.version.data) with
  | some v => v
  | none => dep.version.data

/-- One iteration of the `checkForUpdates` batch (`DependenciesSection.tsx`
lines 88-118). The registry oracle maps a package name to its published
latest version; `none` covers both a failed fetch (the inner catch returns the
dependency unchanged) and a response without a latest tag (the early return).
On success the dependency is annotated with the cleaned latest version and the
comparison outcome; the JavaScript null produced by a failed validity check is
conflated with false, both being falsy. -/
def checkOne (registry : String → Option String) (dep : DepCheck) : DepCheck :=
  match registry dep.name with
  | none => dep
  | some latest =>
    let currentVersion := currentVersionOf dep
    let cleanLatest :=
      match semverClean latest.data with
      | some v => v
      | none => latest.data
    let hasUpd := semverValidL currentVersion && semverValidL cleanLatest &&
      semverGtL cleanLatest currentVersion
    { dep with latestVersion := some (String.mk cleanLatest),
               hasUpdate := some hasUpd }

/-- The whole batch: every dependency is processed independently with its own
error isolation (`Promise.all` over per-item async closures, each with its own
catch). -/
def checkForUpdates (registry : String → Option String) (deps : List DepCheck) :
    List DepCheck :=
  deps.map (checkOne registry)

/-- Concrete dependency with an unparsable stored version, used to settle the
claim that such an entry is left unchanged. -/
def depUnparsable : DepCheck :=
  { name := "leftpad", version := "not-a-version", latestVersion := none,
    hasUpdate := none }

/-- Concrete registry oracle knowing only the package of `depUnparsable`. -/
def registryLeftpad : String → Option String :=
  fun n => if n = "leftpad" then some "2.0.0" else none

/-! ## The repository content fetchers (`src/lib/github.ts` lines 36-94 and
the unnamed variant `part_008` lines 1-99) -/

/-- A directory entry of a GitHub contents listing, restricted to the fields
the filters read. -/
structure GhFile where
  name : String
  size : Nat
deriving DecidableEq, Repr

/-- Oracle for the GitHub REST calls a fetch performs: `defaultBranch` is the
default branch reported by the repository-metadata call, `none` when that call
fails or returns a non-ok status; `listing` maps a branch name to the
directory-array response of the contents call for that branch, `none` when the
call fails. -/
structure GhApi where
  defaultBranch : Option String
  listing : String → Option (List GhFile)

/-- The lowercased extension `file.name.split()&pop()&toLowerCase()` used by
the documentation filter. -/
def fileExt (name : List Char) : List Char :=
  lowerL ((splitOnChar '.' name).getLastD [])

/-- Extensions accepted by the documentation filter of `part_008`. -/
def docExts : List (List Char) :=
  ["md".data, "ts".data, "tsx".data, "js".data, "jsx".data, "json".data,
   "css".data, "scss".data, "less".data]

/-- The `isRelevantFile` conjunction of `part_008` lines 67-74. -/
def relevantDocFile (f : GhFile) : Bool :=
  docExts.contains (fileExt f.name.data)
  && !startsWithL ['.'] f.name.data
  && !containsSub ".test.".data f.name.data
  && !containsSub ".spec.".data f.name.data
  && !containsSub ".min.".data f.name.data
  && !containsSub ".d.ts".data f.name.data
  && decide (f.size < 500000)

/-- The `isConfigFile` whitelist of `part_008` lines 77-88. -/
def configFileNames : List String :=
  ["package.json", "tsconfig.json", "vite.config.ts", "tailwind.config.js",
   "postcss.config.js", "eslint.config.js", ".eslintrc.js", ".eslintrc.json",
   ".prettierrc.js", ".prettierrc.json"]

/-- Membership in the configuration whitelist. -/
def isConfigFile (f : GhFile) : Bool := configFileNames.contains f.name

/-- The combined filter applied by `part_008` to a directory listing. -/
def docFileFilter (f : GhFile) : Bool := relevantDocFile f || isConfigFile f

/-- The `branchesToTry` array of `part_008` line 28. -/
def branchesToTry (defaultBranch : String) : List String :=
  [defaultBranch, "main", "master", "development", "dev"]

/-- The branch loop of `part_008` lines 32-44: the branches are tried in order
and the first ok directory listing is kept. -/
def firstOkListing (api : GhApi) : List String → Option (List GhFile)
  | [] => none
  | b :: bs =>
    match api.listing b with
    | some d => some d
    | none => firstOkListing api bs

/-- `fetchGitHubContent` of `part_008`: the default branch is resolved by the
metadata call with `main` as the fallback value when that call fails; the
candidate branches are then tried in order until one yields an ok listing,
which is filtered for documentation-relevant files; when every candidate
fails, the status-specific error of lines 46-61 is thrown (the distinct
messages are collapsed to one here — no claim concerns their text). -/
def fetchGitHubContentFallback (api : GhApi) : Except String (List GhFile) :=
  let defaultBranch :=
    match api.defaultBranch with
    | some b => b
    | none => "main"
  match firstOkListing api (branchesToTry defaultBranch) with
  | some files => .ok (files.filter docFileFilter)
  | none => .error "Erreur API GitHub"

/-- The file whitelist of `src/lib/github.ts` lines 72-83 for the
environment/dependency sync callers. -/
def envDepFileNames : List (List Char) :=
  ["package.json".data, ".env".data, ".env.example".data, ".env.local".data,
   ".env.development".data, ".env.production".data, ".env.staging".data]

/-- Lowercased-name membership in the whitelist of `src/lib/github.ts`. -/
def envDepFileFilter (f : GhFile) : Bool :=
  envDepFileNames.contains (lowerL f.name.data)

/-- `fetchGitHubContent` of `src/lib/github.ts` lines 36-94: when the
repository-metadata call fails, the catch block re-throws the error
immediately — no candidate branch is tried; otherwise the single contents call
at the reported default branch is made and filtered (the status-specific
messages of `handleGitHubResponse` are collapsed to the generic message of
line 92 — no claim concerns their text). -/
def fetchGitHubContentLib (api : GhApi) : Except String (List GhFile) :=
  match api.defaultBranch with
  | none => .error "Erreur lors de la récupération du contenu GitHub"
  | some b =>
    match api.listing b with
    | some files => .ok (files.filter envDepFileFilter)
    | none => .error "Erreur lors de la récupération du contenu GitHub"

/-- Concrete listing entry used to settle the metadata-failure claim. -/
def ghFilePkg : GhFile := { name := "package.json", size := 120 }

/-- Concrete oracle on which the metadata call fails while the `main` branch
listing succeeds. -/
def ghApiMetaDown : GhApi :=
  { defaultBranch := none,
    listing := fun b => if b = "main" then some [ghFilePkg] else none }

/-! ## Version deletion (`VersionsSection.tsx` lines 138-161) -/

/-- A stored Version row, restricted to the fields `deleteVersion` reads. -/
structure VersionRow where
  id : String
  file_path : String
deriving DecidableEq, Repr

/-- The joint state touched by `deleteVersion`: the `versions` table rows and
the object-storage blob keys of the `project_versions` bucket. -/
structure VersionState where
  rows : List VersionRow
  blobs : List String
deriving DecidableEq, Repr

/-- `deleteVersion` of `VersionsSection.tsx` lines 138-161: the storage blob is
removed first; a storage error is thrown before the database delete is issued;
only then is the row deleted, and a database error is thrown after the blob
removal. `blobOk` and `dbOk` say whether the respective backend call succeeds;
both error paths surface the toast message of the catch block. -/
def deleteVersion (blobOk dbOk : Bool) (v : VersionRow) (s : VersionState) :
    Except String Unit × VersionState :=
  if !blobOk then (.error "Erreur lors de la suppression", s)
  else
    let s1 : VersionState := { s with blobs := s.blobs.filter (fun p => p != v.file_path) }
    if !dbOk then (.error "Erreur lors de la suppression", s1)
    else (.ok (), { s1 with rows := s1.rows.filter (fun r => r.id != v.id) })

/-! ## Task status cycle (`TasksSection.tsx` lines 249-254) -/

/-- The task status enumeration of `types/database.ts`:
à faire, en cours, fait. -/
inductive TaskStatus
  | aFaire
  | enCours
  | fait
deriving DecidableEq, Repr

/-- The status array of the click handler in `TasksSection.tsx`. -/
def taskStatuses : List TaskStatus := [.aFaire, .enCours, .fait]

/-- The click handler of `TasksSection.tsx` lines 249-254: the status at index
one past the current status, modulo the array length. The indexed read is
modeled with a default that is never reached because the computed index is
always in range. -/
def nextTaskStatus (s : TaskStatus) : TaskStatus :=
  taskStatuses.getD ((taskStatuses.indexOf s + 1) % taskStatuses.length) .aFaire

/-- Concrete pre-existing dependency row used to instantiate the sync
claims. -/
def oldDepRow : DepRow :=
  { project_id := "p1", name := "lodash", version := "^4.0.0",
    depType := .production, homepage := "https://www.npmjs.com/package/lodash",
    user_id := "u1" }

/-- Concrete pre-existing environment row used to settle the reconciliation
claim for the environment sync. -/
def oldEnvRow : EnvRow :=
  { project_id := "p1", name := "production", vars := [("OLD_KEY", "old")],
    user_id := "u1" }

/-! # Theorems -/

/-! ## Span lemmas for the line pattern -/

theorem takeWhile_append_cons {p : Char → Bool} (k : List Char) (c : Char)
    (v : List Char) (hk : ∀ x ∈ k, p x) (hc : p c = false) :
    (k ++ c :: v).takeWhile p = k := by
  induction k with
  | nil => simp [List.takeWhile_cons, hc]
  | cons a k ih =>
    have ha : p a := hk a (by simp)
    simp only [List.cons_append, List.takeWhile_cons, ha, if_true]
    rw [ih (fun x hx => hk x (by simp [hx]))]

theorem dropWhile_append_cons {p : Char → Bool} (k : List Char) (c : Char)
    (v : List Char) (hk : ∀ x ∈ k, p x) (hc : p c = false) :
    (k ++ c :: v).dropWhile p = c :: v := by
  induction k with
  | nil => simp [List.dropWhile_cons, hc]
  | cons a k ih =>
    have ha : p a := hk a (by simp)
    simp only [List.cons_append, List.dropWhile_cons, ha, if_true]
    exact ih (fun x hx => hk x (by simp [hx]))

theorem envLineMatch_of_shape (k v : List Char) (hk : '=' ∉ k) (hne : k ≠ [])
    (hv : ∀ c ∈ v, isLineTerm c = false) :
    envLineMatch (k ++ '=' :: v) = some (k, v) := by
  have hall : ∀ x ∈ k, (x != '=') = true := by
    intro x hx
    simp only [bne_iff_ne, ne_eq]
    intro h
    exact hk (h ▸ hx)
  have hc : (('=' : Char) != '=') = false := by decide
  have hany : v.any isLineTerm = false := by
    rw [List.any_eq_false]
    intro c hc2
    simp [hv c hc2]
  unfold envLineMatch
  rw [takeWhile_append_cons k '=' v hall hc, dropWhile_append_cons k '=' v hall hc]
  simp [hne, hany]

theorem envLineMatch_of_lineTerm (k v : List Char) (hk : '=' ∉ k)
    (hv : v.any isLineTerm = true) :
    envLineMatch (k ++ '=' :: v) = none := by
  have hall : ∀ x ∈ k, (x != '=') = true := by
    intro x hx
    simp only [bne_iff_ne, ne_eq]
    intro h
    exact hk (h ▸ hx)
  have hc : (('=' : Char) != '=') = false := by decide
  unfold envLineMatch
  rw [takeWhile_append_cons k '=' v hall hc, dropWhile_append_cons k '=' v hall hc]
  by_cases hne : k = []
  · simp [hne]
  · simp [hne, hv]

theorem envLineMatch_of_no_eq (l : List Char) (h : '=' ∉ l) :
    envLineMatch l = none := by
  have hall : l.dropWhile (fun c => c != '=') = [] := by
    induction l with
    | nil => rfl
    | cons a l ih =>
      have ha : ((a : Char) != '=') = true := by
        simp only [bne_iff_ne, ne_eq]
        intro hh
        exact h (by simp [hh])
      rw [List.dropWhile_cons, if_pos ha]
      exact ih (fun hh => h (by simp [hh]))
  unfold envLineMatch
  rw [hall]

/-! ## Theorems for the `.env` line semantics claim -/

/-- Claim C4 (amended): the parser processes its input line by line; a line
that is blank after trimming is skipped; a line starting with the hash
character is skipped; a line without an equals sign is skipped silently; a
line whose part after the first equals sign contains a line terminator
(carriage return, line or paragraph separator — the dot of the value group
cannot match them) is also skipped silently; a line of shape key-equals-value
with a nonempty key and a terminator-free value is split at the FIRST equals
sign and stored as the trimmed key mapped to the trimmed value with EVERY
quote character removed (not only wrapping quotes — in particular the quoted
line of the spec scenario yields the unquoted value). -/
theorem parseEnvFile_line_semantics :
    (∀ content : List Char,
        parseEnvFileL content = (splitOnChar '\n' content).foldl envLineStep [])
  ∧ (∀ m line, jsTrim line = [] → envLineStep m line = m)
  ∧ (∀ m line, (jsTrim line).head? = some '#' → envLineStep m line = m)
  ∧ (∀ m line, '=' ∉ jsTrim line → envLineStep m line = m)
  ∧ (∀ m line k v, jsTrim line = k ++ '=' :: v → '=' ∉ k →
        v.any isLineTerm = true → envLineStep m line = m)
  ∧ (∀ m line k v, jsTrim line = k ++ '=' :: v → '=' ∉ k → k ≠ [] →
        k.head? ≠ some '#' → (∀ c ∈ v, isLineTerm c = false) →
        envLineStep m line = envInsert m (jsTrim k) (removeQuotes (jsTrim v)))
  ∧ parseEnvFile "API_KEY=\x22abc123\x22" = [("API_KEY", "abc123")] := by
  refine ⟨fun content => rfl, ?_, ?_, ?_, ?_, ?_, by decide⟩
  · intro m line h
    simp [envLineStep, h]
  · intro m line h
    have hne : jsTrim line ≠ [] := by
      intro e
      rw [e] at h
      simp at h
    simp [envLineStep, hne, h]
  · intro m line h
    by_cases h0 : jsTrim line = []
    · simp [envLineStep, h0]
    · by_cases h1 : (jsTrim line).head? = some '#'
      · simp [envLineStep, h0, h1]
      · simp [envLineStep, h0, h1, envLineMatch_of_no_eq _ h]
  · intro m line k v heq hk hterm
    have hnil : k ++ '=' :: v ≠ [] := by
      cases k <;> simp
    by_cases hhd : (k ++ '=' :: v).head? = some '#'
    · simp [envLineStep, heq, hnil, hhd]
    · simp [envLineStep, heq, hnil, hhd, envLineMatch_of_lineTerm k v hk hterm]
  · intro m line k v heq hk hne hhash hv
    have hhd : (k ++ '=' :: v).head? ≠ some '#' := by
      cases k with
      | nil => exact absurd rfl hne
      | cons a k => simpa using hhash
    have hnil : k ++ '=' :: v ≠ [] := by
      cases k <;> simp
    simp only [envLineStep, heq, hnil, if_neg,
      envLineMatch_of_shape k v hk hne hv, if_false]
    rw [if_neg hhd]

/-- Claim C4 witness: the key-equals-value branch of the line semantics at the
concrete line K=1. -/
theorem parseEnvFile_line_semantics_witness :
    envLineStep [] "K=1".data =
      envInsert [] (jsTrim "K".data) (removeQuotes (jsTrim "1".data)) :=
  parseEnvFile_line_semantics.2.2.2.2.2.1 [] "K=1".data "K".data "1".data
    (by decide) (by decide) (by decide) (by decide) (by decide)

/-- Claim C4 counterexample: on the line KEY=It's the parser removes the
INTERIOR quote — the stored value is Its — whereas stripping wrapping quotes
(the spec's words) leaves It's unchanged. -/
theorem parseEnvFile_not_wrapping_only :
    parseEnvFile "KEY=It\x27s" = [("KEY", "Its")]
  ∧ stripWrapQuotes "It\x27s".data = "It\x27s".data
  ∧ ("Its" : String) ≠ "It\x27s" := by decide

/-! ## Trim lemmas -/

theorem rtrim_eq_nil_iff (l : List Char) :
    rtrim l = [] ↔ ∀ c ∈ l, isWsChar c = true := by
  induction l with
  | nil => simp [rtrim]
  | cons c xs ih =>
    constructor
    · intro h a ha
      by_cases h0 : rtrim xs = []
      · rcases List.mem_cons.1 ha with rfl | hmem
        · by_cases hc : isWsChar a
          · exact hc
          · simp [rtrim, h0, hc] at h
        · exact ih.1 h0 a hmem
      · simp [rtrim, h0] at h
    · intro hall
      have h0 : rtrim xs = [] := ih.2 (fun a ha => hall a (by simp [ha]))
      simp [rtrim, h0, hall c (by simp)]

theorem ltrim_cons_of_neg {c : Char} (xs : List Char) (hc : isWsChar c = false) :
    ltrim (c :: xs) = c :: xs := by
  simp [ltrim, List.dropWhile_cons, hc]

theorem ltrim_eq_self_of_head {l : List Char} {c : Char} (h : l.head? = some c)
    (hc : isWsChar c = false) : ltrim l = l := by
  cases l with
  | nil => rfl
  | cons a xs =>
    have : a = c := by simpa using h
    subst this
    exact ltrim_cons_of_neg xs hc

theorem rtrim_append_cons (xs : List Char) {c : Char} (v : List Char)
    (hc : isWsChar c = false) : rtrim (xs ++ c :: v) = xs ++ c :: rtrim v := by
  induction xs with
  | nil =>
    by_cases h : rtrim v = []
    · simp [rtrim, h, hc]
    · simp [rtrim, h]
  | cons x xs ih =>
    have hne : xs ++ c :: rtrim v ≠ [] := by simp
    simp only [List.cons_append, rtrim, List.append_eq, ih, hne, if_neg,
      if_false, ite_false]

theorem mem_rtrim {a : Char} {l : List Char} (h : a ∈ rtrim l) : a ∈ l := by
  induction l with
  | nil => simp [rtrim] at h
  | cons c xs ih =>
    by_cases h0 : rtrim xs = []
    · by_cases hc : isWsChar c
      · simp [rtrim, h0, hc] at h
      · simp only [rtrim, h0, if_pos, hc] at h
        simp at h
        simp [h]
    · simp only [rtrim, h0, if_neg] at h
      rcases List.mem_cons.1 h with h | h
      · simp [h]
      · simp [ih h]

theorem mem_ltrim {a : Char} {l : List Char} (h : a ∈ ltrim l) : a ∈ l :=
  (List.dropWhile_sublist isWsChar).subset h

theorem mem_jsTrim {a : Char} {l : List Char} (h : a ∈ jsTrim l) : a ∈ l :=
  mem_ltrim (mem_rtrim h)

theorem rtrim_head? {l : List Char} (h : rtrim l ≠ []) :
    (rtrim l).head? = l.head? := by
  cases l with
  | nil => rfl
  | cons c xs =>
    by_cases h0 : rtrim xs = []
    · by_cases hc : isWsChar c
      · exact absurd (by simp [rtrim, h0, hc]) h
      · simp [rtrim, h0, hc]
    · simp [rtrim, h0]

theorem ltrim_head_not_ws {l : List Char} {c : Char}
    (h : (ltrim l).head? = some c) : isWsChar c = false := by
  induction l with
  | nil => simp [ltrim] at h
  | cons a xs ih =>
    by_cases ha : isWsChar a
    · rw [ltrim, List.dropWhile_cons, if_pos ha] at h
      exact ih h
    · rw [ltrim, List.dropWhile_cons, if_neg ha] at h
      have : a = c := by simpa using h
      subst this
      simpa using ha

theorem rtrim_idem (l : List Char) : rtrim (rtrim l) = rtrim l := by
  induction l with
  | nil => rfl
  | cons c xs ih =>
    by_cases h0 : rtrim xs = []
    · by_cases hc : isWsChar c
      · simp [rtrim, h0, hc]
      · simp [rtrim, h0, hc]
    · have h1 : rtrim (c :: xs) = c :: rtrim xs := by simp [rtrim, h0]
      rw [h1, rtrim, ih]
      simp [h0]

theorem ltrim_idem (l : List Char) : ltrim (ltrim l) = ltrim l := by
  cases h : ltrim l with
  | nil => rfl
  | cons c xs =>
    have hc : isWsChar c = false := ltrim_head_not_ws (l := l) (by rw [h]; rfl)
    rw [← h]
    exact ltrim_eq_self_of_head (by rw [h]; rfl) hc

theorem ltrim_eq_nil_of_all {l : List Char} (h : ∀ c ∈ l, isWsChar c = true) :
    ltrim l = [] := by
  induction l with
  | nil => rfl
  | cons c xs ih =>
    rw [ltrim, List.dropWhile_cons, if_pos (h c (by simp))]
    exact ih (fun a ha => h a (by simp [ha]))

theorem ltrim_rtrim_comm (l : List Char) : ltrim (rtrim l) = rtrim (ltrim l) := by
  induction l with
  | nil => rfl
  | cons c xs ih =>
    by_cases hc : isWsChar c
    · by_cases h0 : rtrim xs = []
      · have hall : ∀ a ∈ xs, isWsChar a = true := (rtrim_eq_nil_iff xs).1 h0
        have h1 : rtrim (c :: xs) = [] := by simp [rtrim, h0, hc]
        have h2 : ltrim (c :: xs) = ltrim xs := by
          simp [ltrim, List.dropWhile_cons, hc]
        rw [h1, h2, ltrim_eq_nil_of_all hall]
        rfl
      · have h1 : rtrim (c :: xs) = c :: rtrim xs := by simp [rtrim, h0]
        have h2 : ltrim (c :: xs) = ltrim xs := by
          simp [ltrim, List.dropWhile_cons, hc]
        rw [h1, h2, ← ih, ltrim, List.dropWhile_cons, if_pos hc]
        rfl
    · have h2 : ltrim (c :: xs) = c :: xs := ltrim_cons_of_neg xs (by simpa using hc)
      rw [h2]
      by_cases h0 : rtrim xs = []
      · have h1 : rtrim (c :: xs) = [c] := by simp [rtrim, h0, hc]
        rw [h1]
        exact ltrim_cons_of_neg [] (by simpa using hc)
      · have h1 : rtrim (c :: xs) = c :: rtrim xs := by simp [rtrim, h0]
        rw [h1, ltrim_cons_of_neg _ (by simpa using hc)]

theorem jsTrim_idem (l : List Char) : jsTrim (jsTrim l) = jsTrim l := by
  unfold jsTrim
  rw [ltrim_rtrim_comm, ltrim_idem, rtrim_idem]

theorem jsTrim_rtrim (v : List Char) : jsTrim (rtrim v) = jsTrim v := by
  unfold jsTrim
  rw [ltrim_rtrim_comm, rtrim_idem]

theorem jsTrim_head_not_ws {l : List Char} {c : Char}
    (h : (jsTrim l).head? = some c) : isWsChar c = false := by
  have hne : jsTrim l ≠ [] := by
    intro e
    rw [e] at h
    simp at h
  rw [jsTrim, rtrim_head? (by rwa [jsTrim] at hne)] at h
  exact ltrim_head_not_ws h

/-! ## Split/join lemmas -/

theorem splitOnChar_ne_nil (c : Char) (l : List Char) : splitOnChar c l ≠ [] := by
  induction l with
  | nil => simp [splitOnChar]
  | cons x xs ih =>
    by_cases h : x = c
    · simp [splitOnChar, h]
    · simp only [splitOnChar, if_neg h]
      cases hs : splitOnChar c xs with
      | nil => simp
      | cons y ys => simp

theorem splitOnChar_not_mem (c : Char) (l : List Char) :
    ∀ p ∈ splitOnChar c l, c ∉ p := by
  induction l with
  | nil =>
    intro p hp
    simp only [splitOnChar, List.mem_singleton] at hp
    simp [hp]
  | cons x xs ih =>
    intro p hp
    by_cases h : x = c
    · rw [splitOnChar, if_pos h] at hp
      rcases List.mem_cons.1 hp with rfl | hp
      · simp
      · exact ih p hp
    · rw [splitOnChar, if_neg h] at hp
      cases hs : splitOnChar c xs with
      | nil => exact absurd hs (splitOnChar_ne_nil c xs)
      | cons y ys =>
        rw [hs] at hp
        rcases List.mem_cons.1 hp with rfl | hp
        · intro hmem
          rcases List.mem_cons.1 hmem with h1 | h1
          · exact h h1.symm
          · exact ih y (hs ▸ List.mem_cons_self y ys) h1
        · exact ih p (hs ▸ List.mem_cons_of_mem y hp)

theorem splitOnChar_single {c : Char} {a : List Char} (h : c ∉ a) :
    splitOnChar c a = [a] := by
  induction a with
  | nil => rfl
  | cons x xs ih =>
    have hx : ¬x = c := fun e => h (by simp [e])
    rw [splitOnChar, if_neg hx, ih (fun hm => h (by simp [hm]))]

theorem splitOnChar_append {c : Char} {a : List Char} (t : List Char)
    (h : c ∉ a) : splitOnChar c (a ++ c :: t) = a :: splitOnChar c t := by
  induction a with
  | nil => simp [splitOnChar]
  | cons x xs ih =>
    have hx : ¬x = c := fun e => h (by simp [e])
    have ih2 := ih (fun hm => h (by simp [hm]))
    rw [List.cons_append, splitOnChar, if_neg hx, ih2]

theorem splitOnChar_intercalate (c : Char) :
    ∀ ls : List (List Char), ls ≠ [] → (∀ a ∈ ls, c ∉ a) →
      splitOnChar c (intercalateChar c ls) = ls
  | [], h, _ => absurd rfl h
  | [a], _, hall => by
    rw [intercalateChar]
    exact splitOnChar_single (hall a (by simp))
  | a :: b :: rest, _, hall => by
    rw [intercalateChar, splitOnChar_append _ (hall a (by simp)),
      splitOnChar_intercalate c (b :: rest) (by simp)
        (fun x hx => hall x (by simp [hx]))]

/-! ## Inversion and invariants of the `.env` line parser -/

theorem envLineMatch_some_inv {l k v : List Char}
    (h : envLineMatch l = some (k, v)) :
    l = k ++ '=' :: v ∧ '=' ∉ k ∧ k ≠ [] ∧ ∀ c ∈ v, isLineTerm c = false := by
  unfold envLineMatch at h
  split at h
  case _ v0 heq =>
    by_cases hk : l.takeWhile (fun c => c != '=') = []
    · rw [if_pos hk] at h
      exact absurd h (by simp)
    · rw [if_neg hk] at h
      by_cases hterm : v0.any isLineTerm
      · rw [if_pos hterm] at h
        exact absurd h (by simp)
      · rw [if_neg hterm] at h
        have hinj := Option.some.inj h
        have hk1 : l.takeWhile (fun c => c != '=') = k := congrArg Prod.fst hinj
        have hv1 : v0 = v := congrArg Prod.snd hinj
        refine ⟨?_, ?_, ?_, ?_⟩
        · have hsplit : l.takeWhile (fun c => c != '=') ++
              l.dropWhile (fun c => c != '=') = l :=
            List.takeWhile_append_dropWhile (fun c => c != '=') l
          calc l = l.takeWhile (fun c => c != '=') ++
                    l.dropWhile (fun c => c != '=') := hsplit.symm
            _ = k ++ '=' :: v := by rw [hk1, heq, hv1]
        · intro hm
          have := List.mem_takeWhile_imp (hk1 ▸ hm)
          simp at this
        · rw [← hk1]
          exact hk
        · intro c hc
          have hany : v0.any isLineTerm = false := by simpa using hterm
          rw [hv1] at hany
          have := List.any_eq_false.1 hany c hc
          simpa using this
  case _ => exact absurd h (by simp)

theorem mem_removeQuotes {a : Char} {v : List Char}
    (h : a ∈ removeQuotes v) : a ∈ v :=
  List.mem_of_mem_filter h

theorem not_mem_removeQuotes {a : Char} (v : List Char)
    (ha : a = '\x22' ∨ a = '\x27') : a ∉ removeQuotes v := by
  intro hmem
  have := List.of_mem_filter hmem
  rcases ha with rfl | rfl <;> simp at this

theorem removeQuotes_eq_self {v : List Char} (h1 : '\x22' ∉ v)
    (h2 : '\x27' ∉ v) : removeQuotes v = v := by
  rw [removeQuotes, List.filter_eq_self]
  intro a ha
  simp only [Bool.not_eq_true', Bool.or_eq_false_iff, decide_eq_false_iff_not]
  exact ⟨fun e => h1 (e ▸ ha), fun e => h2 (e ▸ ha)⟩

theorem rtrim_length_le (l : List Char) : (rtrim l).length ≤ l.length := by
  induction l with
  | nil => simp [rtrim]
  | cons c xs ih =>
    by_cases h0 : rtrim xs = []
    · by_cases hc : isWsChar c
      · simp [rtrim, h0, hc]
      · simp [rtrim, h0, hc]
    · have h1 : rtrim (c :: xs) = c :: rtrim xs := by simp [rtrim, h0]
      rw [h1, List.length_cons, List.length_cons]
      omega

theorem ltrim_of_jsTrim_fix {l : List Char} (h : jsTrim l = l) : ltrim l = l := by
  have h1 : (ltrim l).length ≤ l.length := (List.dropWhile_sublist isWsChar).length_le
  have h2 : (rtrim (ltrim l)).length ≤ (ltrim l).length := rtrim_length_le _
  have h3 : l.length ≤ (ltrim l).length := by
    conv_lhs => rw [← h]
    exact h2
  exact (List.dropWhile_sublist isWsChar).eq_of_length (le_antisymm h1 h3)

theorem envInsert_preserves_good {m : List (List Char × List Char)}
    {k v : List Char} (hm : EnvGood m) (hkv : GoodEntry (k, v)) :
    EnvGood (envInsert m k v) := by
  by_cases hk : k ∈ envKeys m
  · rw [envInsert, if_pos hk]
    refine ⟨?_, ?_⟩
    · intro kv hkvmem
      rcases List.mem_map.1 hkvmem with ⟨kv0, hkv0, rfl⟩
      by_cases he : kv0.1 = k
      · simpa [he] using hkv
      · simpa [he] using hm.1 kv0 hkv0
    · have hkeys : envKeys (m.map (fun kv => if kv.1 = k then (k, v) else kv)) =
          envKeys m := by
        unfold envKeys
        rw [List.map_map]
        apply List.map_congr_left
        intro kv0 h0
        by_cases he : kv0.1 = k
        · simp [he, Function.comp]
        · simp [he, Function.comp]
      rw [hkeys]
      exact hm.2
  · rw [envInsert, if_neg hk]
    refine ⟨?_, ?_⟩
    · intro kv hkvmem
      rcases List.mem_append.1 hkvmem with h | h
      · exact hm.1 kv h
      · rw [List.mem_singleton.1 h]
        exact hkv
    · have hkeys : envKeys (m ++ [(k, v)]) = envKeys m ++ [k] := by
        simp [envKeys]
      rw [hkeys, List.nodup_append]
      refine ⟨hm.2, List.nodup_singleton k, ?_⟩
      intro a ha hb
      rw [List.mem_singleton] at hb
      subst hb
      exact hk ha

theorem newEntry_good {line k0 v0 : List Char} (hline : '\n' ∉ line)
    (hmatch : envLineMatch (jsTrim line) = some (k0, v0))
    (hhash : (jsTrim line).head? ≠ some '#') :
    GoodEntry (jsTrim k0, removeQuotes (jsTrim v0)) := by
  obtain ⟨hsplit, hk0, hk0ne, hvterm⟩ := envLineMatch_some_inv hmatch
  obtain ⟨c0, k0', rfl⟩ : ∃ c0 k0', k0 = c0 :: k0' := by
    cases k0 with
    | nil => exact absurd rfl hk0ne
    | cons a b => exact ⟨a, b, rfl⟩
  have hheadl : (jsTrim line).head? = some c0 := by rw [hsplit]; rfl
  have hc0 : isWsChar c0 = false := jsTrim_head_not_ws hheadl
  have hc0hash : c0 ≠ '#' := by
    intro e
    exact hhash (e ▸ hheadl)
  have hltrimk : ltrim (c0 :: k0') = c0 :: k0' := ltrim_cons_of_neg _ hc0
  have hjk : jsTrim (c0 :: k0') = rtrim (c0 :: k0') := by rw [jsTrim, hltrimk]
  have hkne : jsTrim (c0 :: k0') ≠ [] := by
    rw [hjk]
    intro e
    have := (rtrim_eq_nil_iff _).1 e c0 (by simp)
    rw [this] at hc0
    cases hc0
  have hmem_line : ∀ a, a ∈ jsTrim line → a ∈ line := fun a ha => mem_jsTrim ha
  refine ⟨hkne, jsTrim_idem _, ?_, ?_, ?_, ?_, ?_, ?_⟩
  · intro hmem
    exact hk0 (mem_jsTrim hmem)
  · intro hmem
    refine hline (hmem_line '\n' ?_)
    rw [hsplit]
    exact List.mem_append_left _ (mem_jsTrim hmem)
  · rw [hjk, rtrim_head? (hjk ▸ hkne)]
    intro e
    exact hc0hash (by simpa using e)
  · intro c hc
    exact hvterm c (mem_jsTrim (mem_removeQuotes hc))
  · exact not_mem_removeQuotes _ (Or.inl rfl)
  · exact not_mem_removeQuotes _ (Or.inr rfl)

theorem envLineStep_preserves_good {m : List (List Char × List Char)}
    {line : List Char} (hm : EnvGood m) (hline : '\n' ∉ line) :
    EnvGood (envLineStep m line) := by
  unfold envLineStep
  by_cases h0 : jsTrim line = []
  · simpa [h0] using hm
  · by_cases h1 : (jsTrim line).head? = some '#'
    · simpa [h0, h1] using hm
    · cases hmatch : envLineMatch (jsTrim line) with
      | none => simpa [h0, h1, hmatch] using hm
      | some kv =>
        obtain ⟨k0, v0⟩ := kv
        have hred : (if jsTrim line = [] then m
            else if (jsTrim line).head? = some '#' then m
            else match envLineMatch (jsTrim line) with
              | none => m
              | some kv => envInsert m (jsTrim kv.1) (removeQuotes (jsTrim kv.2))) =
            envInsert m (jsTrim k0) (removeQuotes (jsTrim v0)) := by
          rw [if_neg h0, if_neg h1, hmatch]
        rw [hred]
        exact envInsert_preserves_good hm (newEntry_good hline hmatch h1)

theorem foldl_envLineStep_good {ls : List (List Char)}
    {m : List (List Char × List Char)} (hls : ∀ line ∈ ls, '\n' ∉ line)
    (hm : EnvGood m) : EnvGood (ls.foldl envLineStep m) := by
  induction ls generalizing m with
  | nil => exact hm
  | cons line ls ih =>
    exact ih (fun x hx => hls x (by simp [hx]))
      (envLineStep_preserves_good hm (hls line (by simp)))

theorem parseEnvFileL_good (t : List Char) : EnvGood (parseEnvFileL t) := by
  unfold parseEnvFileL
  refine foldl_envLineStep_good ?_ ?_
  · intro line hline
    exact splitOnChar_not_mem '\n' t line hline
  · exact ⟨fun kv h => absurd h (List.not_mem_nil kv), List.nodup_nil⟩

/-! ## The serialization round trip -/

theorem envInsert_fresh {acc : List (List Char × List Char)} {k v : List Char}
    (h : k ∉ envKeys acc) : envInsert acc k v = acc ++ [(k, v)] := by
  rw [envInsert, if_neg h]

theorem envLineStep_serialized {acc : List (List Char × List Char)}
    {k v : List Char} (hGood : GoodEntry (k, v)) :
    envLineStep acc (k ++ '=' :: v) = envInsert acc k (jsTrim v) := by
  obtain ⟨hk1, hk2, hk3, _, hk5, hvterm, hq1, hq2⟩ := hGood
  dsimp only at hk1 hk2 hk3 hk5 hvterm hq1 hq2
  obtain ⟨c0, k', rfl⟩ : ∃ c0 k', k = c0 :: k' := by
    cases k with
    | nil => exact absurd rfl hk1
    | cons a b => exact ⟨a, b, rfl⟩
  have hltrim : ltrim (c0 :: k') = c0 :: k' := ltrim_of_jsTrim_fix hk2
  have hc0 : isWsChar c0 = false := by
    have : (ltrim (c0 :: k')).head? = some c0 := by rw [hltrim]; rfl
    exact ltrim_head_not_ws this
  have hjt : jsTrim ((c0 :: k') ++ '=' :: v) = (c0 :: k') ++ '=' :: rtrim v := by
    have hlt : ltrim ((c0 :: k') ++ '=' :: v) = (c0 :: k') ++ '=' :: v :=
      ltrim_cons_of_neg _ hc0
    rw [jsTrim, hlt]
    exact rtrim_append_cons (c0 :: k') v (by decide)
  have hne : (c0 :: k') ++ '=' :: rtrim v ≠ [] := by simp
  have hhd : ((c0 :: k') ++ '=' :: rtrim v).head? ≠ some '#' := by
    simpa using hk5
  have hmatch : envLineMatch ((c0 :: k') ++ '=' :: rtrim v) =
      some (c0 :: k', rtrim v) :=
    envLineMatch_of_shape _ _ hk3 hk1 (fun c hc => hvterm c (mem_rtrim hc))
  have hval : removeQuotes (jsTrim (rtrim v)) = jsTrim v := by
    rw [jsTrim_rtrim]
    exact removeQuotes_eq_self (fun hmem => hq1 (mem_jsTrim hmem))
      (fun hmem => hq2 (mem_jsTrim hmem))
  unfold envLineStep
  rw [hjt]
  rw [if_neg hne, if_neg hhd, hmatch]
  show envInsert acc (jsTrim (c0 :: k')) (removeQuotes (jsTrim (rtrim v))) =
    envInsert acc (c0 :: k') (jsTrim v)
  rw [hval, hk2]

theorem foldl_serialized_rebuild (m : List (List Char × List Char)) :
    ∀ acc, (∀ kv ∈ m, GoodEntry kv) → (envKeys m).Nodup →
      (∀ k ∈ envKeys m, k ∉ envKeys acc) →
      (m.map (fun kv => kv.1 ++ '=' :: kv.2)).foldl envLineStep acc =
        acc ++ m.map (fun kv => (kv.1, jsTrim kv.2)) := by
  induction m with
  | nil =>
    intro acc _ _ _
    simp
  | cons kv m ih =>
    intro acc hGood hnodup hfresh
    obtain ⟨k, v⟩ := kv
    have hkfresh : k ∉ envKeys acc := hfresh k (by simp [envKeys])
    have hstep : envLineStep acc (k ++ '=' :: v) = acc ++ [(k, jsTrim v)] := by
      rw [envLineStep_serialized (hGood (k, v) (by simp)), envInsert_fresh hkfresh]
    have hnodup' : (envKeys m).Nodup := by
      have : envKeys ((k, v) :: m) = k :: envKeys m := rfl
      rw [this] at hnodup
      exact hnodup.of_cons
    have hknotin : k ∉ envKeys m := by
      have : envKeys ((k, v) :: m) = k :: envKeys m := rfl
      rw [this] at hnodup
      exact (List.nodup_cons.1 hnodup).1
    have hfresh' : ∀ k' ∈ envKeys m, k' ∉ envKeys (acc ++ [(k, jsTrim v)]) := by
      intro k' h' hmem
      have : envKeys (acc ++ [(k, jsTrim v)]) = envKeys acc ++ [k] := by
        simp [envKeys]
      rw [this] at hmem
      rcases List.mem_append.1 hmem with h | h
      · have hk'mem : k' ∈ envKeys ((k, v) :: m) := by
          rw [show envKeys ((k, v) :: m) = k :: envKeys m from rfl]
          exact List.mem_cons_of_mem _ h'
        exact hfresh k' hk'mem h
      · rw [List.mem_singleton] at h
        subst h
        exact hknotin h'
    rw [List.map_cons, List.foldl_cons, hstep,
      ih (acc ++ [(k, jsTrim v)]) (fun kv h => hGood kv (by simp [h])) hnodup' hfresh']
    simp

/-- Claim C5 (amended): parsing the serialized output of a parsed variable set
reproduces the same keys in the same order, but each value comes back
whitespace-trimmed — quote stripping can expose leading or trailing whitespace
in a parsed value, and the reparse trims it away. Idempotence as claimed holds
exactly when no parsed value carries boundary whitespace, and fails otherwise
(see the counterexample with a quoted value containing a leading space). -/
theorem parseEnvFile_round_trip (t : List Char) :
    parseEnvFileL (serializeEnvL (parseEnvFileL t)) =
      (parseEnvFileL t).map (fun kv => (kv.1, jsTrim kv.2)) := by
  obtain ⟨hGood, hnodup⟩ := parseEnvFileL_good t
  cases hm : parseEnvFileL t with
  | nil => decide
  | cons kv0 m' =>
    rw [hm] at hGood hnodup
    have hlines : ∀ a ∈ (kv0 :: m').map (fun kv => kv.1 ++ '=' :: kv.2),
        '\n' ∉ a := by
      intro a ha
      rcases List.mem_map.1 ha with ⟨kv1, h1, rfl⟩
      obtain ⟨_, _, _, hn1, _, hterm, _, _⟩ := hGood kv1 h1
      intro hmem
      rcases List.mem_append.1 hmem with h | h
      · exact hn1 h
      · rcases List.mem_cons.1 h with h | h
        · exact absurd h (by decide)
        · exact absurd (hterm '\n' h) (by decide)
    rw [serializeEnvL, parseEnvFileL,
      splitOnChar_intercalate '\n' _ (by simp) hlines]
    exact foldl_serialized_rebuild (kv0 :: m') [] hGood hnodup
      (by intro k hk hmem; simp [envKeys] at hmem)

/-- Claim C5 counterexample: on the input K=' a' the parsed value is the
two-character string space-a (the quotes are stripped, exposing the leading
space); serializing and reparsing trims the value to a, so the round trip does
not reproduce the mapping. -/
theorem parseEnvFile_round_trip_not_identity :
    parseEnvFileL (serializeEnvL (parseEnvFileL "K=\x27 a\x27".data)) ≠
      parseEnvFileL "K=\x27 a\x27".data := by decide

/-! ## Theorems for the GitHub-URL claim -/

theorem dropStart?_append (p t : List Char) : dropStart? p (p ++ t) = some t := by
  induction p with
  | nil => rfl
  | cons c p ih => simp [dropStart?, ih]

theorem dropEnd?_append (p l : List Char) : dropEnd? p (l ++ p) = some l := by
  unfold dropEnd?
  rw [List.reverse_append, dropStart?_append]
  simp

theorem matchGithubTail_of_parts (o r : List Char) (ho : o ≠ []) (ho2 : '/' ∉ o)
    (hr : r ≠ []) (hr2 : '/' ∉ r) (hr3 : '.' ∉ r) (git : Bool) :
    matchGithubTail (o ++ '/' :: (r ++ gitSuffixChars git)) = some (o, r) := by
  have hall : ∀ x ∈ o, (x != '/') = true := by
    intro x hx
    simp only [bne_iff_ne, ne_eq]
    intro hh
    exact ho2 (hh ▸ hx)
  have hrepo : repoSegMatch (r ++ gitSuffixChars git) = some r := by
    cases git with
    | false =>
      have hsuf : gitSuffixChars false = [] := rfl
      rw [hsuf, List.append_nil]
      unfold repoSegMatch
      rw [if_pos ⟨hr, hr2, hr3⟩]
    | true =>
      have hsuf : gitSuffixChars true = '.' :: 'g' :: 'i' :: 't' :: [] := rfl
      have hdot : ('.' : Char) ∈ r ++ gitSuffixChars true := by
        rw [hsuf]
        exact List.mem_append_right _ (by decide)
      unfold repoSegMatch
      rw [if_neg (fun hcon => hcon.2.2 hdot), hsuf, dropEnd?_append]
      show (if r ≠ [] ∧ '/' ∉ r ∧ '.' ∉ r then some r else none) = some r
      exact if_pos ⟨hr, hr2, hr3⟩
  unfold matchGithubTail
  rw [takeWhile_append_cons o '/' _ hall (by decide),
      dropWhile_append_cons o '/' _ hall (by decide)]
  simp [ho, hrepo]

theorem matchGithubUrl_of_parts (o r : List Char) (ho : o ≠ []) (ho2 : '/' ∉ o)
    (hr : r ≠ []) (hr2 : '/' ∉ r) (hr3 : '.' ∉ r) (secure www git : Bool) :
    matchGithubUrl (schemeChars secure ++ wwwChars www ++ ghHostChars ++
      o ++ '/' :: (r ++ gitSuffixChars git)) = some (o, r) := by
  have htail := matchGithubTail_of_parts o r ho ho2 hr hr2 hr3 git
  cases secure <;> cases www <;> exact htail

/-- Claim C1 (amended): the parsing step accepts exactly the https shapes —
http or https scheme, optional www. qualifier, optional trailing .git — and
extracts the owner/repo pair for every such URL; the empty string, a URL with
a missing repo segment and a non-GitHub host are each rejected with the
descriptive invalid-URL message; the trailing-slash and SSH shapes listed by
the claim are REJECTED with the same message rather than parsed; the step is a
total function into an error-or-result type, so it never throws past the
message it produces. -/
theorem parseGithubUrlStep_shapes :
    (∀ o r : List Char, o ≠ [] → '/' ∉ o → r ≠ [] → '/' ∉ r → '.' ∉ r →
        ∀ secure www git : Bool,
          parseGithubUrlStep (githubUrlOf secure www git o r) =
            .ok (String.mk o, String.mk r))
  ∧ parseGithubUrlStep "" = .error githubUrlInvalidMsg
  ∧ parseGithubUrlStep "https://github.com/acme" = .error githubUrlInvalidMsg
  ∧ parseGithubUrlStep "https://gitlab.com/acme/widget" = .error githubUrlInvalidMsg
  ∧ parseGithubUrlStep "https://github.com/acme/widget/" = .error githubUrlInvalidMsg
  ∧ parseGithubUrlStep "git@github.com:acme/widget.git" = .error githubUrlInvalidMsg := by
  refine ⟨?_, by decide, by decide, by decide, by decide, by decide⟩
  intro o r ho ho2 hr hr2 hr3 secure www git
  have hm : matchGithubUrl (githubUrlOf secure www git o r).data = some (o, r) :=
    matchGithubUrl_of_parts o r ho ho2 hr hr2 hr3 secure www git
  unfold parseGithubUrlStep
  rw [hm]
  have hlen1 : ¬(o = [] ∨ r = []) := by
    rintro (h | h)
    exacts [ho h, hr h]
  have hlen2 : ¬(o.length < 1 ∨ r.length < 1) := by
    rintro (h | h)
    · exact ho (List.length_eq_zero.1 (Nat.lt_one_iff.1 h))
    · exact hr (List.length_eq_zero.1 (Nat.lt_one_iff.1 h))
  simp only [if_neg hlen1, if_neg hlen2]

/-- Claim C1 witness: the accepted-shape branch at the concrete URL
https://github.com/acme/widget.git. -/
theorem parseGithubUrlStep_shapes_witness :
    parseGithubUrlStep (githubUrlOf true false true "acme".data "widget".data) =
      .ok (String.mk "acme".data, String.mk "widget".data) :=
  parseGithubUrlStep_shapes.1 "acme".data "widget".data (by decide) (by decide)
    (by decide) (by decide) (by decide) true false true

/-- Claim C1 counterexample: two of the URL shapes the claim lists as parsed —
the trailing-slash form and the SSH form — are rejected by the parsing step
with the invalid-URL error instead of yielding the owner/repo pair. -/
theorem parseGithubUrlStep_rejects_listed_shapes :
    parseGithubUrlStep "https://github.com/acme/widget/" = .error githubUrlInvalidMsg
  ∧ parseGithubUrlStep "git@github.com:acme/widget.git" = .error githubUrlInvalidMsg
  ∧ githubUrlInvalidMsg ≠ "" := by decide

/-! ## Theorems for the dependency/environment synchronization claims -/

theorem depsToSync_pid (pid uid : String) (m : Manifest) :
    ∀ row ∈ depsToSync pid uid m, row.project_id = pid := by
  intro row hr
  rcases List.mem_append.1 hr with h | h <;>
    rcases List.mem_map.1 h with ⟨nv, _, rfl⟩ <;> rfl

/-- Claim C2: after a dependency sync completes successfully, the dependency
rows stored for the project are exactly the manifest's dependencies followed
by its devDependencies, tagged production and development respectively, with
no leftover prior entries. -/
theorem syncDependencies_exact (pid uid : String) (m : Manifest)
    (rows rows' : List DepRow)
    (h : syncDependencies pid uid m rows = (.ok (), rows')) :
    rows'.filter (fun row => row.project_id == pid) =
      m.dependencies.map (prodRow pid uid) ++
        m.devDependencies.map (devRow pid uid) := by
  by_cases hds : depsToSync pid uid m = []
  · rw [syncDependencies, if_pos hds] at h
    exact absurd (congrArg Prod.fst h) (by simp)
  · rw [syncDependencies, if_neg hds] at h
    have hr : rows.filter (fun row => row.project_id != pid) ++
        depsToSync pid uid m = rows' := congrArg Prod.snd h
    rw [← hr, List.filter_append]
    have h1 : (rows.filter (fun row => row.project_id != pid)).filter
        (fun row => row.project_id == pid) = [] := by
      rw [List.filter_eq_nil_iff]
      intro a ha
      have hne := List.of_mem_filter ha
      simp only [bne_iff_ne, ne_eq] at hne
      simp [hne]
    have h2 : (depsToSync pid uid m).filter
        (fun row => row.project_id == pid) = depsToSync pid uid m := by
      rw [List.filter_eq_self]
      intro a ha
      simp [depsToSync_pid pid uid m a ha]
    rw [h1, h2, List.nil_append, depsToSync]

/-- Claim C2 witness: a concrete sync over a manifest with one dependency and
one devDependency replacing one prior row. -/
theorem syncDependencies_exact_witness :
    ([prodRow "p1" "u1" ("react", "18.0.0"), devRow "p1" "u1" ("vite", "5.0.0")] :
        List DepRow).filter (fun row => row.project_id == "p1") =
      [("react", "18.0.0")].map (prodRow "p1" "u1") ++
        [("vite", "5.0.0")].map (devRow "p1" "u1") :=
  syncDependencies_exact "p1" "u1"
    ⟨[("react", "18.0.0")], [("vite", "5.0.0")]⟩ [oldDepRow] _ (by decide)

/-- Claim C10: when the manifest declares no dependencies in either group, the
sync raises the no-dependencies error — thrown before any delete is issued —
and the stored rows are left completely unchanged. -/
theorem syncDependencies_empty_keeps_rows (pid uid : String) (m : Manifest)
    (rows : List DepRow) (h1 : m.dependencies = []) (h2 : m.devDependencies = []) :
    syncDependencies pid uid m rows = (.error noDepsMsg, rows) := by
  have hds : depsToSync pid uid m = [] := by
    rw [depsToSync, h1, h2]
    rfl
  rw [syncDependencies, if_pos hds]

/-- Claim C10 witness: the empty manifest leaves a concrete prior row in
place. -/
theorem syncDependencies_empty_keeps_rows_witness :
    syncDependencies "p1" "u1" ⟨[], []⟩ [oldDepRow] =
      (.error noDepsMsg, [oldDepRow]) :=
  syncDependencies_empty_keeps_rows "p1" "u1" ⟨[], []⟩ [oldDepRow] rfl rfl

/-- Claim C3 (amended): the dependency sync implements delete-then-insert — on
success the stored rows are exactly the rows of other projects followed by the
freshly parsed set; the environment sync however only INSERTS its computed
sets and deletes nothing: every previously stored environment row survives. -/
theorem sync_reconciliation_shape :
    (∀ (pid uid : String) (m : Manifest) (rows rows' : List DepRow),
        syncDependencies pid uid m rows = (.ok (), rows') →
        rows' = rows.filter (fun row => row.project_id != pid) ++
          depsToSync pid uid m)
  ∧ (∀ (pid uid : String) (sets : List (String × List (String × String)))
        (rows : List EnvRow) (row : EnvRow), row ∈ rows →
        row ∈ insertEnvironments pid uid sets rows) := by
  constructor
  · intro pid uid m rows rows' h
    by_cases hds : depsToSync pid uid m = []
    · rw [syncDependencies, if_pos hds] at h
      exact absurd (congrArg Prod.fst h) (by simp)
    · rw [syncDependencies, if_neg hds] at h
      exact (congrArg Prod.snd h).symm
  · intro pid uid sets rows row hr
    unfold insertEnvironments
    exact List.mem_append_left _ hr

/-- Claim C3 witness: a prior environment row is still present after a sync
that inserts nothing. -/
theorem sync_reconciliation_shape_witness :
    oldEnvRow ∈ insertEnvironments "p1" "u1" [] [oldEnvRow] :=
  sync_reconciliation_shape.2 "p1" "u1" [] [oldEnvRow] oldEnvRow (by decide)

/-- Claim C3 counterexample: a pre-existing production environment row of the
project survives a successful environment sync — the loop only inserts, so the
claimed delete-before-insert does not happen on the environment side. -/
theorem insertEnvironments_keeps_prior_row :
    insertEnvironments "p1" "u1" [("development", [("API_KEY", "abc")])]
        [oldEnvRow] =
      [oldEnvRow,
       { project_id := "p1", name := "development", vars := [("API_KEY", "abc")],
         user_id := "u1" }]
  ∧ oldEnvRow ∈ insertEnvironments "p1" "u1"
      [("development", [("API_KEY", "abc")])] [oldEnvRow] := by
  constructor
  · rfl
  · decide

/-! ## Theorems for the version-freshness claim -/

/-- Claim C6 (amended): the batch maps every dependency independently — entry
i of the result is the check of entry i alone, and the result for a
dependency depends only on the registry's answer for that dependency's own
name, so one failing lookup cannot affect the others; a leading caret or
tilde is stripped before comparison; a failed registry lookup leaves the
entry unchanged; an unparsable stored version does not crash the batch but —
unlike the claimed skip — the entry still receives its latestVersion
annotation, with hasUpdate recorded as falsy. -/
theorem checkForUpdates_isolation :
    (∀ (registry : String → Option String) (deps : List DepCheck) (i : Nat),
        (checkForUpdates registry deps)[i]? = (deps[i]?).map (checkOne registry))
  ∧ (∀ (reg reg' : String → Option String) (dep : DepCheck),
        reg dep.name = reg' dep.name → checkOne reg dep = checkOne reg' dep)
  ∧ (∀ v : List Char,
        removeFirstRangeOp ('^' :: v) = v ∧ removeFirstRangeOp ('~' :: v) = v)
  ∧ (∀ (reg : String → Option String) (dep : DepCheck),
        reg dep.name = none → checkOne reg dep = dep)
  ∧ (∀ (reg : String → Option String) (dep : DepCheck) (latest : String),
        reg dep.name = some latest →
        semverValidL (currentVersionOf dep) = false →
        (checkOne reg dep).hasUpdate = some false) := by
  refine ⟨?_, ?_, ?_, ?_, ?_⟩
  · intro registry deps i
    exact List.getElem?_map ..
  · intro reg reg' dep h
    unfold checkOne
    rw [h]
  · intro v
    constructor <;> simp [removeFirstRangeOp]
  · intro reg dep h
    unfold checkOne
    rw [h]
  · intro reg dep latest h h2
    unfold checkOne
    rw [h]
    simp [h2]

/-- Claim C6 witness: a registry with no answers leaves a dependency
unchanged. -/
theorem checkForUpdates_isolation_witness :
    checkOne (fun _ => none) depUnparsable = depUnparsable :=
  checkForUpdates_isolation.2.2.2.1 (fun _ => none) depUnparsable rfl

/-- Claim C6 counterexample: a dependency whose stored version is unparsable
is NOT left unchanged when its registry lookup succeeds — it still receives
the latestVersion annotation and a falsy hasUpdate. -/
theorem checkOne_annotates_unparsable :
    checkOne registryLeftpad depUnparsable =
      { depUnparsable with latestVersion := some "2.0.0", hasUpdate := some false }
  ∧ checkOne registryLeftpad depUnparsable ≠ depUnparsable := by decide

/-! ## Theorems for the branch-fallback claim -/

/-- Claim C7 (amended): on a metadata failure the part_008 fetcher falls back
to the candidate list main, master, development, dev — the first ok listing is
used (shown both when main answers and when only the last candidate dev
answers) — while the src/lib/github.ts fetcher propagates the metadata failure
immediately without trying any branch. -/
theorem fetchGitHubContent_branch_fallback :
    (∀ api : GhApi, api.defaultBranch = none →
        ∀ files, api.listing "main" = some files →
          fetchGitHubContentFallback api = .ok (files.filter docFileFilter))
  ∧ (∀ api : GhApi, api.defaultBranch = none →
        api.listing "main" = none → api.listing "master" = none →
        api.listing "development" = none →
        ∀ files, api.listing "dev" = some files →
          fetchGitHubContentFallback api = .ok (files.filter docFileFilter))
  ∧ (∀ api : GhApi, api.defaultBranch = none →
        fetchGitHubContentLib api =
          .error "Erreur lors de la récupération du contenu GitHub") := by
  refine ⟨?_, ?_, ?_⟩
  · intro api h files hmain
    simp [fetchGitHubContentFallback, h, branchesToTry, firstOkListing, hmain]
  · intro api h h1 h2 h3 files h4
    simp [fetchGitHubContentFallback, h, branchesToTry, firstOkListing,
      h1, h2, h3, h4]
  · intro api h
    simp [fetchGitHubContentLib, h]

/-- Claim C7 witness: the github.ts fetcher on the concrete oracle whose
metadata call is down. -/
theorem fetchGitHubContent_branch_fallback_witness :
    fetchGitHubContentLib ghApiMetaDown =
      .error "Erreur lors de la récupération du contenu GitHub" :=
  fetchGitHubContent_branch_fallback.2.2 ghApiMetaDown rfl

/-- Claim C7 counterexample: on an oracle whose metadata call fails while the
main branch listing succeeds, the src/lib/github.ts fetcher — one of the two
implementations the claim describes — fails immediately instead of falling
back, even though the fallback variant succeeds on the same oracle. -/
theorem fetchGitHubContentLib_no_fallback :
    fetchGitHubContentLib ghApiMetaDown =
      .error "Erreur lors de la récupération du contenu GitHub"
  ∧ ghApiMetaDown.listing "main" = some [ghFilePkg]
  ∧ fetchGitHubContentFallback ghApiMetaDown = .ok [ghFilePkg] := by decide

/-! ## Theorems for the task-status and version-deletion claims -/

/-- Claim C9: the task status advance cycles through the fixed ring
à faire → en cours → fait → à faire; one advance maps each status to the next
in this order wrapping around, and three consecutive advances are the
identity — in particular starting from à faire they return to à faire. -/
theorem nextTaskStatus_ring :
    nextTaskStatus .aFaire = .enCours
  ∧ nextTaskStatus .enCours = .fait
  ∧ nextTaskStatus .fait = .aFaire
  ∧ ∀ s : TaskStatus, nextTaskStatus (nextTaskStatus (nextTaskStatus s)) = s := by
  refine ⟨by decide, by decide, by decide, ?_⟩
  intro s
  cases s <;> decide

/-- Claim C8: deleting a Version attempts the storage-blob delete first; if the
blob delete fails the operation surfaces the failure and neither the row nor
the blob is removed; if the blob delete succeeds the row delete runs next, and
a successful deletion removes both the blob and the row in that order (a
database failure after a successful blob delete leaves the blob already
removed, showing the order of the two steps). -/
theorem deleteVersion_blob_first :
    (∀ (dbOk : Bool) (v : VersionRow) (s : VersionState),
        deleteVersion false dbOk v s = (.error "Erreur lors de la suppression", s))
  ∧ (∀ (v : VersionRow) (s : VersionState),
        deleteVersion true true v s =
          (.ok (), { rows := s.rows.filter (fun r => r.id != v.id),
                     blobs := s.blobs.filter (fun p => p != v.file_path) }))
  ∧ (∀ (v : VersionRow) (s : VersionState),
        deleteVersion true false v s =
          (.error "Erreur lors de la suppression",
           { s with blobs := s.blobs.filter (fun p => p != v.file_path) })) := by
  refine ⟨fun dbOk v s => rfl, fun v s => rfl, fun v s => rfl⟩

end Oproject
